import Mathlib

/-!
# Verification of the PrimeNumber search program

Shallow embedding of `main.go`: the Sieve of Eratosthenes generator
(`sieveOfEratosthenes`), the two primality oracles (`isPrime` by trial
division and `isPrimeMillerRabin` with its modular exponentiation
helper `power`), the per-job worker computation, and the pair producer.

Go `int` (64-bit) is modelled as unbounded `Int`; Go's `%` and `/`
truncate toward zero, which is `Int.tmod` / `Int.tdiv`.  A separate
model (`wrap64`, `powerLoop64`, `n64`) reproduces the 64-bit wraparound
semantics where overflow questions arise.  The call
`time.Now().UnixNano()` made at iteration `i` of the Miller-Rabin
witness loop is modelled by an explicit clock parameter `ts : Nat → Int`.
A Go runtime panic is modelled by `Option.none`.
-/

namespace PrimeNumber

/-- A task for a worker: the pair (p, q) to test (struct `Job` in main.go). -/
structure Job where
  p : Int
  q : Int
deriving DecidableEq, Repr

/-- A positive finding (struct `Result` in main.go). -/
structure SResult where
  p : Int
  q : Int
  n : Int
deriving DecidableEq, Repr

/-! ## Sieve of Eratosthenes (`sieveOfEratosthenes` in main.go) -/

/-- Inner marking loop: `for i := p * p; i <= limit; i += p { primesMarker[i] = true }`.
The `0 < p` guard is for Lean termination only: every call site passes `2 ≤ p`. -/
def markMultiples (marker : List Bool) (p i limit : Nat) : List Bool :=
  if h : i ≤ limit ∧ 0 < p then
    markMultiples (marker.set i true) p (i + p) limit
  else
    marker
termination_by limit + 1 - i
decreasing_by omega

/-- Outer sieve loop: `for p := 2; p*p <= limit; p++ { if !primesMarker[p] { ... } }`. -/
def sieveLoop (marker : List Bool) (p limit : Nat) : List Bool :=
  if h : p * p ≤ limit then
    let marker' := if marker.getD p false = false then markMultiples marker p (p * p) limit else marker
    sieveLoop marker' (p + 1) limit
  else
    marker
termination_by limit + 1 - p
decreasing_by
  have h2 : 1 ≤ p ∨ p = 0 := by omega
  rcases h2 with h2 | h2
  · have := Nat.le_trans (Nat.le_mul_of_pos_left p h2) h
    omega
  · subst h2; omega

/-- Collection loop: `for p := 2; p <= limit; p++ { if !primesMarker[p] { append } }`. -/
def collectLoop (marker : List Bool) (p limit : Nat) : List Int :=
  if p ≤ limit then
    (if marker.getD p false = false then [(p : Int)] else []) ++ collectLoop marker (p + 1) limit
  else
    []
termination_by limit + 1 - p
decreasing_by omega

/-- `sieveOfEratosthenes(limit)`.  For `limit ≤ 0` the Go code panics:
at `limit = 0` the slice `make([]bool, 1)` is indexed at 1 by
`primesMarker[1] = true`; at `limit = -1` the slice is empty and index 0
is out of range; below that `make` itself rejects a negative length.
The panic is modelled as `none`. -/
def sieveOfEratosthenes (limit : Int) : Option (List Int) :=
  if limit ≤ 0 then
    none
  else
    let L := limit.toNat
    let marker0 := ((List.replicate (L + 1) false).set 0 true).set 1 true
    let marked := sieveLoop marker0 2 L
    some (collectLoop marked 2 L)

/-! ## Trial division (`isPrime` in main.go) -/

/-- The 6k±1 trial loop: `for i := 5; i*i <= n; i = i + 6`. -/
def trialDivLoop (n i : Nat) : Bool :=
  if i * i ≤ n then
    if n % i = 0 || n % (i + 2) = 0 then false
    else trialDivLoop n (i + 6)
  else
    true
termination_by n + 1 - i
decreasing_by
  rename_i h
  by_cases h1 : i = 0
  · omega
  · have : i ≤ i * i := Nat.le_mul_of_pos_left i (by omega)
    omega

/-- `isPrime(n)`: trial division over divisors of the form 6k±1. -/
def isPrime (n : Int) : Bool :=
  if n ≤ 1 then false
  else if n ≤ 3 then true
  else if n.tmod 2 = 0 || n.tmod 3 = 0 then false
  else trialDivLoop n.toNat 5

/-! ## Modular exponentiation (`power` in main.go) -/

/-- Loop body of `power`: `res`, `base` and `exp` evolve as in the Go loop
`for exp > 0 { if exp%2 == 1 { res = (res*base)%mod }; base = (base*base)%mod; exp /= 2 }`. -/
def powerLoop (base exp mod res : Int) : Int :=
  if 0 < exp then
    let res' := if exp.tmod 2 = 1 then (res * base).tmod mod else res
    powerLoop ((base * base).tmod mod) (exp.tdiv 2) mod res'
  else
    res
termination_by exp.toNat
decreasing_by
  rename_i h
  have h1 : exp.tdiv 2 = exp / 2 := Int.tdiv_eq_ediv (by omega) (by omega)
  omega

/-- `power(base, exp, mod) = (base^exp) % mod`, by binary exponentiation. -/
def power (base exp mod : Int) : Int :=
  powerLoop (base.tmod mod) exp mod 1

/-! ## Miller-Rabin (`isPrimeMillerRabin` in main.go) -/

/-- Factoring `n-1 = 2^s * d`: the loop `for d%2 == 0 { d /= 2; s++ }`,
returning `(d, s)`.  The `0 < d` guard is for Lean termination only: the
single call site passes `d = n - 1 ≥ 4` (the Go loop would not terminate
on `d = 0`, which is unreachable). -/
def factor2 (d : Int) : Int × Nat :=
  if h : 0 < d ∧ d.tmod 2 = 0 then
    let r := factor2 (d.tdiv 2)
    (r.1, r.2 + 1)
  else
    (d, 0)
termination_by d.toNat
decreasing_by
  have h1 : d.tdiv 2 = d / 2 := Int.tdiv_eq_ediv (by omega) (by omega)
  omega

/-- The inner squaring loop `for r := 1; r < s; r++ { x = power(x, 2, n); if x == n-1 { witness = false; break } }`,
run with fuel `s - 1`; returns the final value of the `witness` flag. -/
def witnessSquares (x n : Int) : Nat → Bool
  | 0 => true
  | m + 1 =>
    let x' := power x 2 n
    if x' = n - 1 then false else witnessSquares x' n m

/-- The witness loop `for i := 0; i < k; i++`, where round `i` draws
`a := 2 + int(time.Now().UnixNano())%(n-3)` from the clock `ts`. -/
def mrLoop (n d : Int) (s : Nat) (ts : Nat → Int) : Nat → Nat → Bool
  | _, 0 => true
  | i, fuel + 1 =>
    let a := 2 + (ts i).tmod (n - 3)
    let x := power a d n
    if x = 1 || x = n - 1 then mrLoop n d s ts (i + 1) fuel
    else if witnessSquares x n (s - 1) then false
    else mrLoop n d s ts (i + 1) fuel

/-- `isPrimeMillerRabin(n, k)`, with the clock made explicit. -/
def isPrimeMillerRabin (n k : Int) (ts : Nat → Int) : Bool :=
  if n ≤ 1 || n = 4 then false
  else if n ≤ 3 then true
  else if n.tmod 2 = 0 then false
  else
    let ds := factor2 (n - 1)
    mrLoop n ds.1 ds.2 ts 0 k.toNat

/-! ## The spec's deterministic Miller-Rabin

Modelled from the spec: the deterministic algorithm of §4.2 — reject
n<2; accept n∈{2,3}; reject even n; factor n−1 = 2^s·d; test against
the fixed witness set {2,3,5,7,11,13,17,19,23,29,31,37}, skipping any
witness ≥ n−1.  This definition follows the spec's words and exists to
be compared against `isPrimeMillerRabin`, which is translated from the
code. -/
def specWitnessSet : List Int := [2, 3, 5, 7, 11, 13, 17, 19, 23, 29, 31, 37]

/-- Modelled from the spec: one strong-pseudoprime round against witness `a`
(the same test the code's witness loop performs, with a fixed base). -/
def specRound (n d : Int) (s : Nat) (a : Int) : Bool :=
  let x := power a d n
  if x = 1 || x = n - 1 then true
  else !(witnessSquares x n (s - 1))

/-- Modelled from the spec: the deterministic fixed-witness Miller-Rabin of §4.2. -/
def millerRabinSpec (n : Int) : Bool :=
  if n < 2 then false
  else if n = 2 || n = 3 then true
  else if n.tmod 2 = 0 then false
  else
    let ds := factor2 (n - 1)
    specWitnessSet.all fun a => if n - 1 ≤ a then true else specRound n ds.1 ds.2 a

/-! ## Worker (`worker` in main.go) -/

/-- The body of `worker` for one consumed job: compute `n := p*p + 4*(q*q)`,
query the selected oracle, and emit a `Result` on a positive verdict
(`none` models emitting nothing). -/
def workerStep (alg : String) (k : Int) (ts : Nat → Int) (job : Job) : Option SResult :=
  let n := job.p * job.p + 4 * (job.q * job.q)
  let verdict := if alg = "miller" then isPrimeMillerRabin n k ts else isPrime n
  if verdict then some ⟨job.p, job.q, n⟩ else none

/-! ## Producer (the job-distribution goroutine in `main`) -/

/-- An observable action of the producer goroutine: a send on the job
channel, or the single `close(jobs)`. -/
inductive ProdEvent where
  | job (j : Job)
  | close
deriving DecidableEq, Repr

/-- Inner producer loop `for _, q := range primes { jobs <- Job{p, q} }`. -/
def producerInner (p : Int) : List Int → List ProdEvent
  | [] => []
  | q :: qs => ProdEvent.job ⟨p, q⟩ :: producerInner p qs

/-- Outer producer loop `for _, p := range primes { ... }`. -/
def producerOuter (qs : List Int) : List Int → List ProdEvent
  | [] => []
  | p :: ps => producerInner p qs ++ producerOuter qs ps

/-- The complete event trace of the producer goroutine: all sends in
program order, then the single `close(jobs)`. -/
def producerTrace (primes : List Int) : List ProdEvent :=
  producerOuter primes primes ++ [ProdEvent.close]

/-! ## 64-bit wraparound model (for the overflow claims)

`wrap64` is two's-complement reduction of a mathematical integer into
`int64`; the `...64` functions repeat the code's computations with the
wrap applied to every multiplication and addition, i.e. they compute
what the Go program actually computes. -/

/-- Two's-complement int64 semantics of a mathematical integer. -/
def wrap64 (x : Int) : Int :=
  (x + 2 ^ 63) % 2 ^ 64 - 2 ^ 63

/-- The loop of `power` as executed on Go's 64-bit `int`. -/
def powerLoop64 (base exp mod res : Int) : Int :=
  if 0 < exp then
    let res' := if exp.tmod 2 = 1 then (wrap64 (res * base)).tmod mod else res
    powerLoop64 ((wrap64 (base * base)).tmod mod) (exp.tdiv 2) mod res'
  else
    res
termination_by exp.toNat
decreasing_by
  rename_i h
  have h1 : exp.tdiv 2 = exp / 2 := Int.tdiv_eq_ediv (by omega) (by omega)
  omega

/-- `power` as executed on Go's 64-bit `int`. -/
def power64 (base exp mod : Int) : Int :=
  powerLoop64 (base.tmod mod) exp mod 1

/-- The candidate `n := (p * p) + 4*(q*q)` as computed by the worker on
Go's 64-bit `int`: each multiplication and the final addition wrap. -/
def n64 (p q : Int) : Int :=
  wrap64 (wrap64 (p * p) + wrap64 (4 * wrap64 (q * q)))

/-- The inner squaring loop of the witness test as executed on Go's
64-bit `int`: every arithmetic operation wraps. -/
def witnessSquares64 (x n : Int) : Nat → Bool
  | 0 => true
  | m + 1 =>
    let y := power64 x 2 n
    if y = wrap64 (n - 1) then false else witnessSquares64 y n m

/-- The witness loop as executed on Go's 64-bit `int`. -/
def mrLoop64 (n d : Int) (s : Nat) (ts : Nat → Int) : Nat → Nat → Bool
  | _, 0 => true
  | i, fuel + 1 =>
    let a := wrap64 (2 + (ts i).tmod (wrap64 (n - 3)))
    let x := power64 a d n
    if x = 1 || x = wrap64 (n - 1) then mrLoop64 n d s ts (i + 1) fuel
    else if witnessSquares64 x n (s - 1) then false
    else mrLoop64 n d s ts (i + 1) fuel

/-- `isPrimeMillerRabin(n, k)` as executed on Go's 64-bit `int`.  The
comparisons of the guards and the division/parity loop of `factor2`
involve no operation that can overflow for int64 operands (Go division
overflows only at MinInt64 / -1), so only the subtraction feeding
`factor2` and the witness loop are wrapped. -/
def isPrimeMillerRabin64 (n k : Int) (ts : Nat → Int) : Bool :=
  if n ≤ 1 || n = 4 then false
  else if n ≤ 3 then true
  else if n.tmod 2 = 0 then false
  else
    let ds := factor2 (wrap64 (n - 1))
    mrLoop64 n ds.1 ds.2 ts 0 k.toNat

/-- The body of `worker` for one consumed job as executed on Go's 64-bit
`int`: the candidate is the wrapped `n64`, and the miller branch runs the
wrapped Miller-Rabin.  The trial branch keeps the exact `isPrime`, whose
verdict agrees with the 64-bit execution on every int64 input: a
composite meets its smallest factor (at most √n, so before `i*i` can
overflow) and a prime gains no divisor. -/
def workerStep64 (alg : String) (k : Int) (ts : Nat → Int) (job : Job) : Option SResult :=
  let n := n64 job.p job.q
  let verdict := if alg = "miller" then isPrimeMillerRabin64 n k ts else isPrime n
  if verdict then some ⟨job.p, job.q, n⟩ else none

/-! ## Correctness of `power` -/

theorem int_pow_emod (a : Int) (k : Nat) (n : Int) : (a % n) ^ k % n = a ^ k % n :=
  Int.ModEq.pow k (Int.emod_emod_of_dvd a dvd_rfl)

theorem int_mul_pow_emod (x y : Int) (k : Nat) (n : Int) :
    (x % n) * ((y % n) ^ k) % n = x * y ^ k % n :=
  Int.ModEq.mul (Int.emod_emod_of_dvd x dvd_rfl) (Int.ModEq.pow k (Int.emod_emod_of_dvd y dvd_rfl))

theorem powerLoop_spec : ∀ (e : Nat) (base exp mod res : Int), exp.toNat = e → 0 < mod →
    0 ≤ base → base < mod → 0 ≤ res → res < mod →
    powerLoop base exp mod res = res * base ^ exp.toNat % mod := by
  intro e
  induction e using Nat.strong_induction_on with
  | _ e ih =>
    intro base exp mod res he hm hb0 hbm hr0 hrm
    rw [powerLoop]
    by_cases hexp : 0 < exp
    · simp only [if_pos hexp]
      have htd : exp.tdiv 2 = exp / 2 := Int.tdiv_eq_ediv (by omega) (by omega)
      have htm : exp.tmod 2 = exp % 2 := Int.tmod_eq_emod (by omega) (by omega)
      have hbb : (base * base).tmod mod = (base * base) % mod :=
        Int.tmod_eq_emod (by positivity) (by omega)
      have hbb0 : 0 ≤ (base * base) % mod := Int.emod_nonneg _ (by omega)
      have hbbm : (base * base) % mod < mod := Int.emod_lt_of_pos _ hm
      have hlt : (exp.tdiv 2).toNat < e := by omega
      set k := (exp.tdiv 2).toNat with hkdef
      by_cases hodd : exp.tmod 2 = 1
      · simp only [if_pos hodd]
        have hrb : (res * base).tmod mod = (res * base) % mod :=
          Int.tmod_eq_emod (by positivity) (by omega)
        rw [hrb, hbb,
          ih k hlt _ _ _ _ rfl hm hbb0 hbbm (Int.emod_nonneg _ (by omega)) (Int.emod_lt_of_pos _ hm)]
        have he2 : exp.toNat = 2 * k + 1 := by omega
        rw [he2, int_mul_pow_emod]
        congr 1
        rw [pow_succ, pow_mul, pow_two]
        ring
      · simp only [if_neg hodd]
        have he2 : exp.toNat = 2 * k := by omega
        rw [hbb, ih k hlt _ _ _ _ rfl hm hbb0 hbbm hr0 hrm]
        conv_lhs => rw [(Int.emod_eq_of_lt hr0 hrm).symm]
        rw [he2, int_mul_pow_emod, pow_mul, pow_two]
    · simp only [if_neg hexp]
      have h0 : exp.toNat = 0 := by omega
      rw [h0]
      simp only [pow_zero, mul_one]
      exact (Int.emod_eq_of_lt hr0 hrm).symm

theorem power_spec (base exp mod : Int) (hm : 1 < mod) (hb : 0 ≤ base) :
    power base exp mod = base ^ exp.toNat % mod := by
  unfold power
  have h1 : base.tmod mod = base % mod := Int.tmod_eq_emod hb (by omega)
  rw [h1, powerLoop_spec exp.toNat _ _ _ _ rfl (by omega) (Int.emod_nonneg _ (by omega))
    (Int.emod_lt_of_pos _ (by omega)) (by omega) (by omega)]
  rw [one_mul, int_pow_emod]

theorem power_nonneg_lt (base exp mod : Int) (hm : 1 < mod) (hb : 0 ≤ base) :
    0 ≤ power base exp mod ∧ power base exp mod < mod := by
  rw [power_spec base exp mod hm hb]
  exact ⟨Int.emod_nonneg _ (by omega), Int.emod_lt_of_pos _ (by omega)⟩

/-! ## Correctness of `factor2` and the trial-division loop -/

/-- `factor2` really factors: for positive input `d₀`, `factor2 d₀ = (d, s)`
with `d₀ = d * 2^s`, `d` positive and odd. -/
theorem factor2_spec : ∀ (e : Nat) (d0 : Int), d0.toNat = e → 0 < d0 →
    (factor2 d0).1 * 2 ^ (factor2 d0).2 = d0 ∧ 0 < (factor2 d0).1 ∧ (factor2 d0).1.tmod 2 = 1 := by
  intro e
  induction e using Nat.strong_induction_on with
  | _ e ih =>
    intro d0 he hd0
    rw [factor2]
    by_cases h : 0 < d0 ∧ d0.tmod 2 = 0
    · simp only [dif_pos h]
      have htm : d0.tmod 2 = d0 % 2 := Int.tmod_eq_emod (by omega) (by omega)
      have htd : d0.tdiv 2 = d0 / 2 := Int.tdiv_eq_ediv (by omega) (by omega)
      have hmod : d0 % 2 = 0 := by omega
      have hpos : 0 < d0.tdiv 2 := by omega
      have hlt : (d0.tdiv 2).toNat < e := by omega
      obtain ⟨h1, h2, h3⟩ := ih (d0.tdiv 2).toNat hlt (d0.tdiv 2) rfl hpos
      refine ⟨?_, h2, h3⟩
      rw [pow_succ, ← mul_assoc, h1]
      omega
    · simp only [dif_neg h]
      have htm : d0.tmod 2 = d0 % 2 := Int.tmod_eq_emod (by omega) (by omega)
      have : ¬(d0.tmod 2 = 0) := by tauto
      constructor
      · simp
      · omega

/-- If the argument is even and positive, at least one halving happens. -/
theorem factor2_pos_s (d0 : Int) (h : 0 < d0) (he : d0.tmod 2 = 0) :
    1 ≤ (factor2 d0).2 := by
  rw [factor2]
  simp only [dif_pos (And.intro h he)]
  omega

/-- The 6k±1 loop succeeds iff no number of the form `i + 6t` (with its
pair `i + 6t + 2`) whose square is at most `n` divides `n`. -/
theorem trialDivLoop_iff : ∀ (fuel : Nat) (n i : Nat), n + 1 - i = fuel →
    (trialDivLoop n i = true ↔
      ∀ t : Nat, (i + 6 * t) * (i + 6 * t) ≤ n →
        ¬(i + 6 * t) ∣ n ∧ ¬(i + 6 * t + 2) ∣ n) := by
  intro fuel
  induction fuel using Nat.strong_induction_on with
  | _ fuel ih =>
    intro n i hfuel
    rw [trialDivLoop]
    by_cases hg : i * i ≤ n
    · simp only [if_pos hg]
      by_cases hdvd : n % i = 0 || n % (i + 2) = 0
      · simp only [if_pos hdvd, Bool.false_eq_true, false_iff]
        intro hall
        obtain ⟨hn1, hn2⟩ := hall 0 (by simpa using hg)
        simp only [Nat.mul_zero, Nat.add_zero] at hn1 hn2
        have hdvd2 : n % i = 0 ∨ n % (i + 2) = 0 := by simpa using hdvd
        rcases hdvd2 with hc | hc
        · exact hn1 (Nat.dvd_of_mod_eq_zero hc)
        · exact hn2 (Nat.dvd_of_mod_eq_zero hc)
      · simp only [if_neg hdvd]
        have hii : i = 0 ∨ i ≤ i * i := by
          rcases Nat.eq_zero_or_pos i with h0 | h1
          · exact Or.inl h0
          · exact Or.inr (Nat.le_mul_of_pos_left i h1)
        have hlt : n + 1 - (i + 6) < fuel := by omega
        rw [ih (n + 1 - (i + 6)) hlt n (i + 6) rfl]
        constructor
        · intro hrest t hsq
          rcases t with _ | t'
          · simp only [Nat.mul_zero, Nat.add_zero]
            constructor
            · intro hc
              have : n % i = 0 := Nat.mod_eq_zero_of_dvd hc
              simp [this] at hdvd
            · intro hc
              have : n % (i + 2) = 0 := Nat.mod_eq_zero_of_dvd hc
              simp [this] at hdvd
          · have harr : i + 6 * (t' + 1) = (i + 6) + 6 * t' := by omega
            rw [harr] at hsq ⊢
            exact hrest t' hsq
        · intro hall t hsq
          have harr : (i + 6) + 6 * t = i + 6 * (t + 1) := by omega
          rw [harr] at hsq ⊢
          exact hall (t + 1) hsq
    · simp only [if_neg hg, true_iff]
      intro t hsq
      exfalso
      have : i * i ≤ (i + 6 * t) * (i + 6 * t) := Nat.mul_le_mul (by omega) (by omega)
      omega

/-! ## `isPrime` decides primality -/

/-- A number ≥ 5 with no factor of 2 or 3 and no 6k±1 factor up to its
square root is prime. -/
theorem prime_of_trialDivLoop (m : Nat) (h5 : 5 ≤ m) (h2 : m % 2 ≠ 0) (h3 : m % 3 ≠ 0)
    (hl : trialDivLoop m 5 = true) : Nat.Prime m := by
  by_contra hnp
  have hiff := (trialDivLoop_iff (m + 1 - 5) m 5 rfl).mp hl
  set p := m.minFac with hpdef
  have hp : p.Prime := Nat.minFac_prime (by omega)
  have hdvd : p ∣ m := Nat.minFac_dvd m
  have hsq : p * p ≤ m := by
    have := Nat.minFac_sq_le_self (n := m) (by omega) hnp
    simpa [pow_two] using this
  have hp2 : p ≠ 2 := by
    intro h
    exact h2 (Nat.mod_eq_zero_of_dvd (h ▸ hdvd))
  have hp3 : p ≠ 3 := by
    intro h
    exact h3 (Nat.mod_eq_zero_of_dvd (h ▸ hdvd))
  have hp4 : p ≠ 4 := by
    intro h
    rw [h] at hp
    exact (by decide : ¬ Nat.Prime 4) hp
  have hp5 : 5 ≤ p := by
    have := hp.two_le
    omega
  have hpodd : p % 2 = 1 := by
    rcases Nat.even_or_odd p with he | ho
    · exfalso
      have h2p : 2 ∣ p := he.two_dvd
      rcases hp.eq_one_or_self_of_dvd 2 h2p with hc | hc <;> omega
    · exact Nat.odd_iff.mp ho
  have hpnot3 : p % 3 ≠ 0 := by
    intro hc
    have h3p : 3 ∣ p := Nat.dvd_of_mod_eq_zero hc
    rcases hp.eq_one_or_self_of_dvd 3 h3p with hd | hd
    · omega
    · omega
  have hp6 : p % 6 = 1 ∨ p % 6 = 5 := by omega
  rcases hp6 with h6 | h6
  · -- p = 7 + 6t, tested as (5 + 6t) + 2
    have hp7 : 7 ≤ p := by omega
    obtain ⟨t, ht⟩ : ∃ t, p = 5 + 6 * t + 2 := ⟨p / 6 - 1, by omega⟩
    have hguard : (5 + 6 * t) * (5 + 6 * t) ≤ m := by
      have : (5 + 6 * t) * (5 + 6 * t) ≤ p * p := Nat.mul_le_mul (by omega) (by omega)
      omega
    exact (hiff t hguard).2 (ht ▸ hdvd)
  · -- p = 5 + 6t
    obtain ⟨t, ht⟩ : ∃ t, p = 5 + 6 * t := ⟨p / 6, by omega⟩
    have hguard : (5 + 6 * t) * (5 + 6 * t) ≤ m := by
      rw [← ht]
      exact hsq
    exact (hiff t hguard).1 (ht ▸ hdvd)

/-- Conversely, a prime has no 6k±1 factor up to its square root. -/
theorem trialDivLoop_of_prime (m : Nat) (hp : Nat.Prime m) (h5 : 5 ≤ m) :
    trialDivLoop m 5 = true := by
  rw [trialDivLoop_iff (m + 1 - 5) m 5 rfl]
  intro t hsq
  constructor
  · intro hc
    rcases hp.eq_one_or_self_of_dvd _ hc with h | h
    · omega
    · have h5t : 5 ≤ 5 + 6 * t := by omega
      have : 5 * (5 + 6 * t) ≤ (5 + 6 * t) * (5 + 6 * t) := Nat.mul_le_mul (by omega) (by omega)
      omega
  · intro hc
    rcases hp.eq_one_or_self_of_dvd _ hc with h | h
    · omega
    · have : 5 * (5 + 6 * t) ≤ (5 + 6 * t) * (5 + 6 * t) := Nat.mul_le_mul (by omega) (by omega)
      omega

/-- `isPrime` decides primality: it returns `true` exactly on integers
`n > 1` whose value is a prime number. -/
theorem isPrime_eq_true_iff (n : Int) : isPrime n = true ↔ 1 < n ∧ Nat.Prime n.toNat := by
  unfold isPrime
  by_cases h1 : n ≤ 1
  · simp only [if_pos h1, Bool.false_eq_true, false_iff]
    omega
  · simp only [if_neg h1]
    by_cases h3 : n ≤ 3
    · simp only [if_pos h3, true_iff]
      have : n = 2 ∨ n = 3 := by omega
      rcases this with h | h
      · subst h
        exact ⟨by omega, by decide⟩
      · subst h
        exact ⟨by omega, by decide⟩
    · simp only [if_neg h3]
      have h4 : 4 ≤ n := by omega
      have htm2 : n.tmod 2 = n % 2 := Int.tmod_eq_emod (by omega) (by omega)
      have htm3 : n.tmod 3 = n % 3 := Int.tmod_eq_emod (by omega) (by omega)
      have hm : (n.toNat : Int) = n := Int.toNat_of_nonneg (by omega)
      by_cases hdiv : n.tmod 2 = 0 ∨ n.tmod 3 = 0
      · have : (n.tmod 2 = 0 || n.tmod 3 = 0) = true := by
          rcases hdiv with h | h <;> simp [h]
        simp only [if_pos this, Bool.false_eq_true, false_iff]
        intro ⟨hn1, hnp⟩
        rcases hdiv with h | h
        · have h2d : 2 ∣ n.toNat := by omega
          rcases hnp.eq_one_or_self_of_dvd 2 h2d with hc | hc <;> omega
        · have h3d : 3 ∣ n.toNat := by omega
          rcases hnp.eq_one_or_self_of_dvd 3 h3d with hc | hc <;> omega
      · have : ¬((n.tmod 2 = 0 || n.tmod 3 = 0) = true) := by
          simp only [Bool.or_eq_true, decide_eq_true_eq]
          tauto
        simp only [if_neg this]
        have h5 : 5 ≤ n.toNat := by omega
        have hm2 : n.toNat % 2 ≠ 0 := by omega
        have hm3 : n.toNat % 3 ≠ 0 := by omega
        constructor
        · intro hl
          exact ⟨by omega, prime_of_trialDivLoop n.toNat h5 hm2 hm3 hl⟩
        · intro ⟨_, hnp⟩
          exact trialDivLoop_of_prime n.toNat hnp h5

/-! ## Primes pass every Miller-Rabin round -/

/-- Square-root descent in `ZMod p`: if `y^(2^s) = 1` then either `y = 1`
or some repeated square of `y` is `-1`. -/
theorem zmod_pow_descent (p : Nat) [Fact p.Prime] :
    ∀ (s : Nat) (y : ZMod p), y ^ 2 ^ s = 1 → y = 1 ∨ ∃ r, r < s ∧ y ^ 2 ^ r = -1 := by
  intro s
  induction s with
  | zero =>
    intro y h
    left
    simpa using h
  | succ s ih =>
    intro y h
    have hsq : (y ^ 2 ^ s) * (y ^ 2 ^ s) = 1 := by
      rw [← pow_add]
      rw [← h]
      congr 1
      ring
    rcases mul_self_eq_one_iff.mp hsq with h1 | h1
    · rcases ih y h1 with h2 | ⟨r, hr, h2⟩
      · exact Or.inl h2
      · exact Or.inr ⟨r, by omega, h2⟩
    · exact Or.inr ⟨s, by omega, h1⟩

/-- If some iterated square of `x` hits `n - 1` within the fuel, the
witness flag is cleared. -/
theorem witnessSquares_false (n : Int) (hn : 5 ≤ n) :
    ∀ (m : Nat) (x : Int), 0 ≤ x → x < n →
      (∃ j, 1 ≤ j ∧ j ≤ m ∧ x ^ 2 ^ j % n = n - 1) → witnessSquares x n m = false := by
  intro m
  induction m with
  | zero =>
    rintro x _ _ ⟨j, hj1, hj0, _⟩
    omega
  | succ m ih =>
    rintro x hx0 hxn ⟨j, hj1, hjm, hj⟩
    rw [witnessSquares]
    have hps : power x 2 n = x ^ 2 % n := by
      rw [power_spec x 2 n (by omega) hx0]
      rw [show Int.toNat 2 = 2 from rfl]
    by_cases hx' : power x 2 n = n - 1
    · simp only [if_pos hx']
    · simp only [if_neg hx']
      have hj2 : 2 ≤ j := by
        rcases Nat.lt_or_ge j 2 with h | h
        · exfalso
          have : j = 1 := by omega
          subst this
          rw [pow_one] at hj
          rw [hps] at hx'
          exact hx' hj
        · exact h
      obtain ⟨j', rfl⟩ : ∃ j', j = j' + 2 := ⟨j - 2, by omega⟩
      apply ih (power x 2 n) (Int.emod_nonneg _ (by omega) |> fun h => hps ▸ h)
        (hps ▸ Int.emod_lt_of_pos _ (by omega : (0:Int) < n))
      refine ⟨j' + 1, by omega, by omega, ?_⟩
      rw [hps, int_pow_emod]
      rw [← pow_mul]
      have : 2 * 2 ^ (j' + 1) = 2 ^ (j' + 2) := by ring
      rw [this]
      exact hj


/-- In `ZMod p` (p ≥ 2), a natural number cast equals `-1` iff its
residue is `p - 1`. -/
theorem natCast_eq_neg_one_iff (p : Nat) (hp2 : 2 ≤ p) (u : Nat) :
    ((u : ZMod p) = -1) ↔ u % p = p - 1 := by
  haveI : NeZero p := ⟨by omega⟩
  have hneg : ((p - 1 : Nat) : ZMod p) = -1 := by
    have hc : ((p : Nat) : ZMod p) = 0 := ZMod.natCast_self p
    rw [Nat.cast_sub (by omega : 1 ≤ p), hc]
    simp
  constructor
  · intro h
    have := congrArg ZMod.val (h.trans hneg.symm)
    rw [ZMod.val_natCast, ZMod.val_natCast] at this
    rw [this, Nat.mod_eq_of_lt (by omega)]
  · intro h
    rw [← hneg, ← ZMod.natCast_mod u p, h]

/-- A prime `n ≥ 5` passes the witness round for any base `2 ≤ a ≤ n-2`:
either `a^d % n` is `±1`, or an iterated square reaches `n - 1`. -/
theorem mrRound_pass (n : Int) (hn : 5 ≤ n) (hp : Nat.Prime n.toNat)
    (d : Int) (s : Nat) (hd : 0 < d) (hfact : d * 2 ^ s = n - 1)
    (a : Int) (ha2 : 2 ≤ a) (han : a ≤ n - 2) :
    power a d n = 1 ∨ power a d n = n - 1 ∨ witnessSquares (power a d n) n (s - 1) = false := by
  set p := n.toNat with hpdef
  haveI : Fact p.Prime := ⟨hp⟩
  haveI : Fact (1 < p) := ⟨by omega⟩
  have hp5 : 5 ≤ p := by omega
  have hnp : n = (p : Int) := by omega
  set dN := d.toNat with hdN
  set aN := a.toNat with haN
  have ha : a = (aN : Int) := by omega
  have hx : power a d n = a ^ dN % n := power_spec a d n (by omega) (by omega)
  have hxN : power a d n = ((aN ^ dN % p : Nat) : Int) := by
    rw [hx, ha, hnp]
    push_cast
    ring_nf
  -- the base is a unit mod p
  have ha0 : (aN : ZMod p) ≠ 0 := by
    intro hc
    have hval := congrArg ZMod.val hc
    rw [ZMod.val_natCast, ZMod.val_zero, Nat.mod_eq_of_lt (by omega)] at hval
    omega
  have hfermat : ((aN : ZMod p)) ^ (p - 1) = 1 := ZMod.pow_card_sub_one_eq_one ha0
  -- the exponent identity over ℕ
  have hexp : dN * 2 ^ s = p - 1 := by
    have hMc : ((dN * 2 ^ s : Nat) : Int) = (p : Int) - 1 := by
      push_cast
      rw [show ((dN : Int)) = d by omega]
      rw [hfact, hnp]
    omega
  have hdesc := zmod_pow_descent p s ((aN : ZMod p) ^ dN) (by
    rw [← pow_mul, hexp]
    exact hfermat)
  rcases hdesc with h1 | ⟨r, hr, h1⟩
  · -- a^d ≡ 1
    left
    rw [hxN]
    have : ((aN ^ dN : Nat) : ZMod p) = 1 := by
      push_cast
      exact h1
    have hval := congrArg ZMod.val this
    rw [ZMod.val_natCast, ZMod.val_one] at hval
    rw [hval]
    norm_num
  · -- (a^d)^(2^r) ≡ -1
    have hcast : ((aN ^ (dN * 2 ^ r) : Nat) : ZMod p) = -1 := by
      push_cast
      rw [pow_mul]
      exact h1
    have hres : aN ^ (dN * 2 ^ r) % p = p - 1 :=
      (natCast_eq_neg_one_iff p (by omega) _).mp hcast
    rcases Nat.eq_zero_or_pos r with hr0 | hr1
    · -- r = 0 : a^d ≡ -1, the x == n-1 branch
      right; left
      subst hr0
      simp only [pow_zero, Nat.mul_one] at hres
      rw [hxN, hres, hnp]
      omega
    · -- r ≥ 1 : the squaring loop reaches n - 1
      right; right
      apply witnessSquares_false n hn (s - 1) (power a d n)
        (power_nonneg_lt a d n (by omega) (by omega)).1
        (power_nonneg_lt a d n (by omega) (by omega)).2
      refine ⟨r, hr1, by omega, ?_⟩
      rw [hx, int_pow_emod, ← pow_mul]
      rw [ha, hnp]
      have : ((aN : Int)) ^ (dN * 2 ^ r) % (p : Int) = ((aN ^ (dN * 2 ^ r) % p : Nat) : Int) := by
        push_cast
        ring_nf
      rw [this, hres]
      omega


/-- For prime `n`, every iteration of the witness loop passes, whatever
the clock readings (as long as they are nonnegative, as `UnixNano` is). -/
theorem mrLoop_true_of_prime (n d : Int) (s : Nat) (hn : 5 ≤ n) (hp : Nat.Prime n.toNat)
    (hd : 0 < d) (hfact : d * 2 ^ s = n - 1) (ts : Nat → Int) (hts : ∀ i, 0 ≤ ts i) :
    ∀ (fuel i : Nat), mrLoop n d s ts i fuel = true := by
  intro fuel
  induction fuel with
  | zero =>
    intro i
    rfl
  | succ fuel ih =>
    intro i
    simp only [mrLoop]
    set a := 2 + (ts i).tmod (n - 3) with hadef
    have ha2 : 2 ≤ a := by
      have := Int.tmod_nonneg (n - 3) (hts i)
      omega
    have han : a ≤ n - 2 := by
      have := Int.tmod_lt_of_pos (ts i) (show (0:Int) < n - 3 by omega)
      omega
    rcases mrRound_pass n hn hp d s hd hfact a ha2 han with h | h | h
    · simp only [h]
      simp [ih]
    · simp only [h]
      simp [ih]
    · by_cases hx : (power a d n = 1 ∨ power a d n = n - 1)
      · rcases hx with hx | hx <;> simp [hx, ih]
      · push_neg at hx
        simp [hx.1, hx.2, h, ih]

/-- Whenever trial division certifies a prime, the time-seeded
Miller-Rabin agrees, for every iteration count and every (nonnegative)
clock sequence: the test has no false negatives. -/
theorem millerRabin_true_of_isPrime (n k : Int) (ts : Nat → Int)
    (hts : ∀ i, 0 ≤ ts i) (h : isPrime n = true) :
    isPrimeMillerRabin n k ts = true := by
  obtain ⟨hn1, hp⟩ := (isPrime_eq_true_iff n).mp h
  unfold isPrimeMillerRabin
  by_cases h3 : n ≤ 3
  · have hg : ¬(n ≤ 1 || n = 4) = true := by
      simp only [Bool.or_eq_true, decide_eq_true_eq]
      omega
    simp only [if_neg hg, if_pos h3]
  · have hne4 : n ≠ 4 := by
      intro hc
      rw [hc] at hp
      exact (by decide : ¬ Nat.Prime (Int.toNat 4)) hp
    have hn5 : 5 ≤ n := by omega
    have hg : ¬(n ≤ 1 || n = 4) = true := by
      simp only [Bool.or_eq_true, decide_eq_true_eq]
      omega
    have hodd : n.toNat % 2 = 1 := by
      rcases Nat.even_or_odd n.toNat with he | ho
      · exfalso
        rcases hp.eq_one_or_self_of_dvd 2 he.two_dvd with hc | hc <;> omega
      · exact Nat.odd_iff.mp ho
    have htm : n.tmod 2 = n % 2 := Int.tmod_eq_emod (by omega) (by omega)
    have htmne : ¬(n.tmod 2 = 0) := by omega
    simp only [if_neg hg, if_neg h3, if_neg htmne]
    obtain ⟨hfact, hdpos, hdodd⟩ := factor2_spec (n - 1).toNat (n - 1) rfl (by omega)
    exact mrLoop_true_of_prime n (factor2 (n - 1)).1 (factor2 (n - 1)).2 hn5 hp hdpos hfact ts hts _ 0

/-! ## 64-bit overflow analysis -/

/-- The witness loop depends on the clock only through the readings it
actually takes. -/
theorem mrLoop_congr (n d : Int) (s : Nat) (ts ts' : Nat → Int) :
    ∀ (fuel i : Nat), (∀ j, i ≤ j → j < i + fuel → ts j = ts' j) →
      mrLoop n d s ts i fuel = mrLoop n d s ts' i fuel := by
  intro fuel
  induction fuel with
  | zero =>
    intro i _
    rfl
  | succ fuel ih =>
    intro i hagree
    simp only [mrLoop]
    rw [hagree i (by omega) (by omega)]
    have hrec := ih (i + 1) (fun j hj1 hj2 => hagree j (by omega) (by omega))
    rw [hrec]

/-- `isPrimeMillerRabin` depends on the clock only through the first `k`
readings of the witness loop. -/
theorem millerRabin_clock_congr (n k : Int) (ts ts' : Nat → Int)
    (h : ∀ j, j < k.toNat → ts j = ts' j) :
    isPrimeMillerRabin n k ts = isPrimeMillerRabin n k ts' := by
  unfold isPrimeMillerRabin
  split
  · rfl
  · split
    · rfl
    · split
      · rfl
      · exact mrLoop_congr n _ _ ts ts' k.toNat 0 (fun j hj1 hj2 => h j (by omega))

/-- Values already in int64 range are unchanged by the wraparound. -/
theorem wrap64_eq_self {x : Int} (h1 : -(2 ^ 63) ≤ x) (h2 : x < 2 ^ 63) :
    wrap64 x = x := by
  unfold wrap64
  omega

/-- As long as the modulus squared fits in int64, the 64-bit execution of
the `power` loop coincides with exact arithmetic: no intermediate product
overflows. -/
theorem powerLoop64_eq : ∀ (e : Nat) (base exp mod res : Int), exp.toNat = e →
    0 < mod → mod * mod ≤ 2 ^ 63 → 0 ≤ base → base < mod → 0 ≤ res → res < mod →
    powerLoop64 base exp mod res = powerLoop base exp mod res := by
  intro e
  induction e using Nat.strong_induction_on with
  | _ e ih =>
    intro base exp mod res he hm hm2 hb0 hbm hr0 hrm
    rw [powerLoop64, powerLoop]
    by_cases hexp : 0 < exp
    · simp only [if_pos hexp]
      have hprod : ∀ u v : Int, 0 ≤ u → u < mod → 0 ≤ v → v < mod → wrap64 (u * v) = u * v := by
        intro u v hu0 hum hv0 hvm
        apply wrap64_eq_self
        · have h0 : 0 ≤ u * v := mul_nonneg hu0 hv0
          omega
        · have h1 : u * v ≤ (mod - 1) * (mod - 1) := by nlinarith
          nlinarith
      have hbb : wrap64 (base * base) = base * base := hprod base base hb0 hbm hb0 hbm
      have hrb : wrap64 (res * base) = res * base := hprod res base hr0 hrm hb0 hbm
      rw [hbb, hrb]
      have htd : exp.tdiv 2 = exp / 2 := Int.tdiv_eq_ediv (by omega) (by omega)
      have hbbt : (base * base).tmod mod = (base * base) % mod :=
        Int.tmod_eq_emod (by positivity) (by omega)
      have hlt : (exp.tdiv 2).toNat < e := by omega
      by_cases hodd : exp.tmod 2 = 1
      · simp only [if_pos hodd]
        have hrbt : (res * base).tmod mod = (res * base) % mod :=
          Int.tmod_eq_emod (by positivity) (by omega)
        apply ih _ hlt _ _ _ _ rfl hm hm2
        · rw [hbbt]
          exact Int.emod_nonneg _ (by omega)
        · rw [hbbt]
          exact Int.emod_lt_of_pos _ hm
        · rw [hrbt]
          exact Int.emod_nonneg _ (by omega)
        · rw [hrbt]
          exact Int.emod_lt_of_pos _ hm
      · simp only [if_neg hodd]
        apply ih _ hlt _ _ _ _ rfl hm hm2
        · rw [hbbt]
          exact Int.emod_nonneg _ (by omega)
        · rw [hbbt]
          exact Int.emod_lt_of_pos _ hm
        · exact hr0
        · exact hrm
    · simp only [if_neg hexp]

/-- `power` computed in int64 equals `power` in exact arithmetic whenever
`mod² ≤ 2^63`: all products `res*base` and `base*base` stay in range. -/
theorem power64_eq (base exp mod : Int) (hm : 1 < mod) (hm2 : mod * mod ≤ 2 ^ 63)
    (hb : 0 ≤ base) : power64 base exp mod = power base exp mod := by
  unfold power64 power
  exact powerLoop64_eq exp.toNat _ _ _ _ rfl (by omega) hm2
    (Int.tmod_nonneg mod hb) (Int.tmod_lt_of_pos base (by omega)) (by omega) (by omega)

/-- For `p, q ≤ 24645` the worker's evaluation of `p² + 4q²` does not
overflow: the 64-bit computation returns the exact value. -/
theorem n64_eq (p q : Int) (hp0 : 0 ≤ p) (hp : p ≤ 24645) (hq0 : 0 ≤ q) (hq : q ≤ 24645) :
    n64 p q = p * p + 4 * (q * q) := by
  have hpp0 : 0 ≤ p * p := mul_nonneg hp0 hp0
  have hqq0 : 0 ≤ q * q := mul_nonneg hq0 hq0
  have hpp : p * p ≤ 607376025 := by nlinarith
  have hqq : q * q ≤ 607376025 := by nlinarith
  unfold n64
  rw [wrap64_eq_self (x := q * q) (by omega) (by omega)]
  rw [wrap64_eq_self (x := 4 * (q * q)) (by omega) (by omega)]
  rw [wrap64_eq_self (x := p * p) (by omega) (by omega)]
  rw [wrap64_eq_self (x := p * p + 4 * (q * q)) (by omega) (by omega)]


/-- On the overflow-free domain `n² ≤ 2^63`, the 64-bit squaring loop
coincides with the exact one. -/
theorem witnessSquares64_eq (n : Int) (hn : 5 ≤ n) (hn2 : n * n ≤ 2 ^ 63) :
    ∀ (m : Nat) (x : Int), 0 ≤ x → x < n → witnessSquares64 x n m = witnessSquares x n m := by
  have hnlt : n ≤ 2 ^ 63 := by nlinarith
  have hw1 : wrap64 (n - 1) = n - 1 := wrap64_eq_self (by omega) (by omega)
  intro m
  induction m with
  | zero =>
    intro x _ _
    rfl
  | succ m ih =>
    intro x hx0 hxn
    rw [witnessSquares64, witnessSquares]
    rw [hw1, power64_eq x 2 n (by omega) hn2 hx0]
    obtain ⟨hp0, hpn⟩ := power_nonneg_lt x 2 n (by omega) hx0
    by_cases hy : power x 2 n = n - 1
    · simp only [if_pos hy]
    · simp only [if_neg hy]
      exact ih (power x 2 n) hp0 hpn

/-- On the overflow-free domain and for int64 clock readings, the 64-bit
witness loop coincides with the exact one. -/
theorem mrLoop64_eq (n d : Int) (s : Nat) (ts : Nat → Int) (hn : 5 ≤ n)
    (hn2 : n * n ≤ 2 ^ 63) (hts : ∀ i, 0 ≤ ts i ∧ ts i < 2 ^ 63) :
    ∀ (fuel i : Nat), mrLoop64 n d s ts i fuel = mrLoop n d s ts i fuel := by
  have hnlt : n ≤ 2 ^ 63 := by nlinarith
  have hw1 : wrap64 (n - 1) = n - 1 := wrap64_eq_self (by omega) (by omega)
  have hw3 : wrap64 (n - 3) = n - 3 := wrap64_eq_self (by omega) (by omega)
  intro fuel
  induction fuel with
  | zero =>
    intro i
    rfl
  | succ fuel ih =>
    intro i
    rw [mrLoop64, mrLoop]
    rw [hw3]
    have htm0 : 0 ≤ (ts i).tmod (n - 3) := Int.tmod_nonneg (n - 3) (hts i).1
    have htmlt : (ts i).tmod (n - 3) < n - 3 := Int.tmod_lt_of_pos (ts i) (by omega)
    have hwa : wrap64 (2 + (ts i).tmod (n - 3)) = 2 + (ts i).tmod (n - 3) :=
      wrap64_eq_self (by omega) (by omega)
    rw [hwa, hw1, power64_eq _ d n (by omega) hn2 (by omega)]
    rw [ih (i + 1)]
    obtain ⟨hp0, hpn⟩ := power_nonneg_lt (2 + (ts i).tmod (n - 3)) d n (by omega) (by omega)
    rw [witnessSquares64_eq n hn hn2 (s - 1) _ hp0 hpn]

/-- On the overflow-free domain `n² ≤ 2^63` and for int64 clock readings,
the Miller-Rabin test as executed on 64-bit ints coincides with the exact
model: no intermediate wraps. -/
theorem isPrimeMillerRabin64_eq (n k : Int) (ts : Nat → Int)
    (hn2 : n * n ≤ 2 ^ 63) (hts : ∀ i, 0 ≤ ts i ∧ ts i < 2 ^ 63) :
    isPrimeMillerRabin64 n k ts = isPrimeMillerRabin n k ts := by
  unfold isPrimeMillerRabin64 isPrimeMillerRabin
  by_cases h1 : (n ≤ 1 || n = 4) = true
  · rw [if_pos h1, if_pos h1]
  · rw [if_neg h1, if_neg h1]
    by_cases h3 : n ≤ 3
    · rw [if_pos h3, if_pos h3]
    · rw [if_neg h3, if_neg h3]
      by_cases h2 : n.tmod 2 = 0
      · rw [if_pos h2, if_pos h2]
      · rw [if_neg h2, if_neg h2]
        have hn5 : 5 ≤ n := by
          simp only [Bool.or_eq_true, decide_eq_true_eq] at h1
          omega
        have hnlt : n ≤ 2 ^ 63 := by nlinarith
        have hw1 : wrap64 (n - 1) = n - 1 := wrap64_eq_self (by omega) (by omega)
        rw [hw1]
        exact mrLoop64_eq n (factor2 (n - 1)).1 (factor2 (n - 1)).2 ts hn5 hn2 hts k.toNat 0

/-! ## Producer trace lemmas -/

/-- The inner loop sends exactly one job per `q` in order. -/
theorem producerInner_eq_map (p : Int) (qs : List Int) :
    producerInner p qs = qs.map fun q => ProdEvent.job ⟨p, q⟩ := by
  induction qs with
  | nil => rfl
  | cons q qs ih =>
    simp [producerInner, ih]

/-- The producer's sends are the pairs of the cartesian square, `p` outer,
`q` inner, in stored order. -/
theorem producerOuter_eq_bind (qs : List Int) :
    ∀ ps : List Int, producerOuter qs ps = ps.flatMap fun p => qs.map fun q => ProdEvent.job ⟨p, q⟩ := by
  intro ps
  induction ps with
  | nil => rfl
  | cons p ps ih =>
    simp [producerOuter, producerInner_eq_map, ih]

theorem producerInner_count_job (p : Int) (qs : List Int) (j : Job) :
    (producerInner p qs).count (ProdEvent.job j) = if j.p = p then qs.count j.q else 0 := by
  induction qs with
  | nil => simp [producerInner]
  | cons q qs ih =>
    rcases j with ⟨a, b⟩
    simp only [producerInner, List.count_cons, ih]
    by_cases hap : a = p
    · subst hap
      by_cases hbq : b = q
      · subst hbq
        simp
      · simp [hbq, Ne.symm hbq]
    · simp only [if_neg hap]
      have : ¬(ProdEvent.job ⟨p, q⟩ == ProdEvent.job ⟨a, b⟩) = true := by
        simp [Job.mk.injEq]
        intro hc
        omega
      simp [this]

theorem producerOuter_count_job (qs : List Int) (j : Job) :
    ∀ ps : List Int, ps.Nodup →
      (producerOuter qs ps).count (ProdEvent.job j) = if j.p ∈ ps then qs.count j.q else 0 := by
  intro ps
  induction ps with
  | nil => simp [producerOuter]
  | cons p ps ih =>
    intro hnd
    rcases List.nodup_cons.mp hnd with ⟨hpnot, hnd'⟩
    simp only [producerOuter, List.count_append, producerInner_count_job, ih hnd']
    by_cases hap : j.p = p
    · subst hap
      simp [hpnot]
    · simp only [if_neg hap, List.mem_cons]
      by_cases hmem : j.p ∈ ps
      · simp [hmem, hap]
      · simp [hmem, hap]

theorem producerInner_count_close (p : Int) (qs : List Int) :
    (producerInner p qs).count ProdEvent.close = 0 := by
  induction qs with
  | nil => rfl
  | cons q qs ih =>
    simp [producerInner, List.count_cons, ih]

theorem producerOuter_count_close (qs : List Int) :
    ∀ ps : List Int, (producerOuter qs ps).count ProdEvent.close = 0 := by
  intro ps
  induction ps with
  | nil => rfl
  | cons p ps ih =>
    simp [producerOuter, List.count_append, producerInner_count_close, ih]

/-! ## Claim theorems -/

/-- C7: the trial-division oracle `isPrime` returns true exactly on the
prime integers (rejecting everything at most 1). -/
theorem c7_isPrime_decides_primality (n : Int) :
    isPrime n = true ↔ 1 < n ∧ Nat.Prime n.toNat :=
  isPrime_eq_true_iff n

/-- C7 witness: the characterization instantiated at 7. -/
theorem c7_isPrime_decides_primality_witness :
    isPrime 7 = true :=
  (c7_isPrime_decides_primality 7).mpr ⟨by norm_num, by norm_num [Int.toNat]⟩

/-- C10: with a nonpositive iteration count the witness loop never runs,
so every odd integer at least 5 is declared prime. -/
theorem c10_nonpositive_k_accepts (n k : Int) (ts : Nat → Int)
    (hn : 5 ≤ n) (hodd : n.tmod 2 = 1) (hk : k ≤ 0) :
    isPrimeMillerRabin n k ts = true := by
  unfold isPrimeMillerRabin
  have hg : ¬(n ≤ 1 || n = 4) = true := by
    simp only [Bool.or_eq_true, decide_eq_true_eq]
    omega
  have h3 : ¬ n ≤ 3 := by omega
  have h2 : ¬(n.tmod 2 = 0) := by omega
  simp only [if_neg hg, if_neg h3, if_neg h2]
  have h0 : k.toNat = 0 := by omega
  rw [h0]
  rfl

/-- C10 witness: the composite 25 (and any odd composite) is declared
prime when k = 0. -/
theorem c10_nonpositive_k_accepts_witness :
    isPrimeMillerRabin 25 0 (fun _ => 0) = true ∧ ¬ Nat.Prime 25 :=
  ⟨c10_nonpositive_k_accepts 25 0 (fun _ => 0) (by norm_num) (by decide) (by norm_num),
   by norm_num⟩

/-- C4 counterexample: two calls of `isPrimeMillerRabin` with identical
arguments n = 25, k = 1 but different clock readings return different
verdicts, so the oracle is not a pure function of its arguments. -/
theorem c4_counterexample :
    isPrimeMillerRabin 25 1 (fun _ => 0) = false ∧
    isPrimeMillerRabin 25 1 (fun _ => 5) = true := by
  constructor
  · simp [isPrimeMillerRabin, mrLoop, factor2, witnessSquares, power, powerLoop,
      Int.tmod, Int.tdiv]
  · simp [isPrimeMillerRabin, mrLoop, factor2, witnessSquares, power, powerLoop,
      Int.tmod, Int.tdiv]

/-- C4 amended: `isPrime` is a pure total function of n, and
`isPrimeMillerRabin` is total and deterministic only relative to the
clock: its verdict depends on n, k and the first k clock readings, and
on nothing else. -/
theorem c4_determinism (n k : Int) (ts ts' : Nat → Int)
    (h : ∀ j, j < k.toNat → ts j = ts' j) :
    isPrime n = isPrime n ∧ isPrimeMillerRabin n k ts = isPrimeMillerRabin n k ts' :=
  ⟨rfl, millerRabin_clock_congr n k ts ts' h⟩

/-- C4 witness: clock-independence instantiated at n = 109, k = 2 with
two pointwise-equal clocks. -/
theorem c4_determinism_witness :
    isPrime 109 = isPrime 109 ∧
    isPrimeMillerRabin 109 2 (fun _ => 3) = isPrimeMillerRabin 109 2 (fun j => 3 + 0 * j) :=
  c4_determinism 109 2 (fun _ => 3) (fun j => 3 + 0 * j) (fun j _ => by ring)


/-- C1 counterexample: the code does not implement the fixed-witness
deterministic Miller-Rabin of the spec: at n = 25 (below the
deterministic bound) a clock reading of 27 selects the strong liar
a = 2 + 27 mod 22 = 7 and the code answers true, while the fixed
witness set answers false. -/
theorem c1_counterexample :
    isPrimeMillerRabin 25 1 (fun _ => 27) = true ∧ millerRabinSpec 25 = false := by
  constructor
  · simp [isPrimeMillerRabin, mrLoop, factor2, witnessSquares, power, powerLoop,
      Int.tmod, Int.tdiv]
  · simp [millerRabinSpec, specWitnessSet, specRound, factor2, witnessSquares, power,
      powerLoop, Int.tmod, Int.tdiv]

/-- C1 amended: `isPrimeMillerRabin` has the stated edge behavior
(rejects n ≤ 1, accepts 2 and 3, rejects even n ≥ 4) and correctly
factors n - 1 = 2^s·d with d odd, but its witness loop tests k
clock-derived bases a = 2 + UnixNano mod (n-3), not the fixed witness
set of the spec. -/
theorem c1_millerRabin_structure (n k : Int) (ts : Nat → Int) :
    (n ≤ 1 → isPrimeMillerRabin n k ts = false) ∧
    ((n = 2 ∨ n = 3) → isPrimeMillerRabin n k ts = true) ∧
    (4 ≤ n → n.tmod 2 = 0 → isPrimeMillerRabin n k ts = false) ∧
    (5 ≤ n → n.tmod 2 = 1 →
      (factor2 (n - 1)).1 * 2 ^ (factor2 (n - 1)).2 = n - 1 ∧
      (factor2 (n - 1)).1.tmod 2 = 1 ∧ 1 ≤ (factor2 (n - 1)).2) := by
  refine ⟨?_, ?_, ?_, ?_⟩
  · intro h1
    unfold isPrimeMillerRabin
    have hg : (n ≤ 1 || n = 4) = true := by
      simp only [Bool.or_eq_true, decide_eq_true_eq]
      omega
    simp [hg]
  · intro h23
    unfold isPrimeMillerRabin
    have hg : ¬(n ≤ 1 || n = 4) = true := by
      simp only [Bool.or_eq_true, decide_eq_true_eq]
      omega
    have h3 : n ≤ 3 := by omega
    simp [hg, h3]
  · intro h4 heven
    unfold isPrimeMillerRabin
    by_cases h44 : n = 4
    · have hg : (n ≤ 1 || n = 4) = true := by
        simp only [Bool.or_eq_true, decide_eq_true_eq]
        omega
      simp [hg]
    · have hg : ¬(n ≤ 1 || n = 4) = true := by
        simp only [Bool.or_eq_true, decide_eq_true_eq]
        omega
      have h3 : ¬ n ≤ 3 := by omega
      simp [hg, h3, heven]
  · intro h5 hodd
    have htm : n.tmod 2 = n % 2 := Int.tmod_eq_emod (by omega) (by omega)
    have hpos : 0 < n - 1 := by omega
    have heven : (n - 1).tmod 2 = 0 := by
      have : (n - 1).tmod 2 = (n - 1) % 2 := Int.tmod_eq_emod (by omega) (by omega)
      omega
    obtain ⟨hfact, hdpos, hdodd⟩ := factor2_spec (n - 1).toNat (n - 1) rfl hpos
    exact ⟨hfact, hdodd, factor2_pos_s (n - 1) hpos heven⟩

/-- C1 witness: the structure facts instantiated at n = 9
(9 - 1 = 2³ · 1). -/
theorem c1_millerRabin_structure_witness :
    (factor2 (9 - 1 : Int)).1 * 2 ^ (factor2 (9 - 1 : Int)).2 = (9 : Int) - 1 ∧
    (factor2 (9 - 1 : Int)).1.tmod 2 = 1 ∧ 1 ≤ (factor2 (9 - 1 : Int)).2 :=
  (c1_millerRabin_structure 9 5 (fun _ => 0)).2.2.2 (by norm_num) (by decide)

/-- C6 counterexample: below the deterministic witness bound the two
oracles can disagree: 25 is rejected by trial division but accepted by
the time-seeded Miller-Rabin when the clock reading 49 selects the
strong liar a = 7. -/
theorem c6_counterexample :
    isPrime 25 = false ∧ isPrimeMillerRabin 25 1 (fun _ => 49) = true := by
  constructor
  · simp [isPrime, trialDivLoop, Int.tmod]
  · simp [isPrimeMillerRabin, mrLoop, factor2, witnessSquares, power, powerLoop,
      Int.tmod, Int.tdiv]

/-- C6 amended: agreement holds in one direction and on the
overflow-free domain only — for every n up to 3037000499 (so n² < 2^63
and no modular-exponentiation intermediate wraps), whenever trial
division certifies n prime, the Miller-Rabin test as executed on 64-bit
ints also answers true, for every iteration count and every int64 clock
sequence; on composites the answer depends on the clock-selected
witnesses, and above the bound overflow can even make the test reject a
prime. -/
theorem c6_oracles_agree_on_primes (n k : Int) (ts : Nat → Int)
    (hts : ∀ i, 0 ≤ ts i ∧ ts i < 2 ^ 63) (hn : n ≤ 3037000499)
    (h : isPrime n = true) :
    isPrimeMillerRabin64 n k ts = true := by
  have h1 : 1 < n := ((isPrime_eq_true_iff n).mp h).1
  have hn2 : n * n ≤ 2 ^ 63 := by nlinarith
  rw [isPrimeMillerRabin64_eq n k ts hn2 hts]
  exact millerRabin_true_of_isPrime n k ts (fun i => (hts i).1) h

/-- C6 witness: agreement at the prime 109. -/
theorem c6_oracles_agree_on_primes_witness :
    isPrimeMillerRabin64 109 5 (fun _ => 0) = true :=
  c6_oracles_agree_on_primes 109 5 (fun _ => 0)
    (fun _ => ⟨le_refl 0, by norm_num⟩) (by norm_num)
    (by simp [isPrime, trialDivLoop, Int.tmod])

/-- C5 counterexample: with the unrecognized selector "bogus" the worker
does not fail: it processes the job (3, 5) and reports the result
(3, 5, 109), exactly as the default trial-division strategy does. -/
theorem c5_counterexample :
    workerStep "bogus" 5 (fun _ => 0) ⟨3, 5⟩ = some ⟨3, 5, 109⟩ ∧
    ("bogus" : String) ≠ "trial" ∧ ("bogus" : String) ≠ "miller" := by
  refine ⟨?_, by decide, by decide⟩
  simp [workerStep, isPrime, trialDivLoop, Int.tmod]

/-- C5 amended: an unrecognized primality-algorithm selector is not
rejected anywhere: every selector other than "miller" silently selects
trial division, job after job; no fail-fast path exists. -/
theorem c5_silent_fallback (alg : String) (halg : alg ≠ "miller")
    (k : Int) (ts : Nat → Int) (job : Job) :
    workerStep alg k ts job = workerStep "trial" k ts job := by
  unfold workerStep
  simp [halg]

/-- C5 witness: the fallback instantiated at selector "bogus". -/
theorem c5_silent_fallback_witness :
    workerStep "bogus" 5 (fun _ => 0) ⟨3, 2⟩ = workerStep "trial" 5 (fun _ => 0) ⟨3, 2⟩ :=
  c5_silent_fallback "bogus" (by decide) 5 (fun _ => 0) ⟨3, 2⟩


/-- C8 counterexample: under the "miller" strategy a worker can report a
composite: for the job (3, 2) the candidate is 25, and with k = 1 and a
clock reading of 5 (witness a = 7, a strong liar for 25) the worker
emits the Result (3, 2, 25), which the claim says is never reported. -/
theorem c8_counterexample :
    workerStep "miller" 1 (fun _ => 5) ⟨3, 2⟩ = some ⟨3, 2, 25⟩ ∧ ¬ Nat.Prime 25 := by
  constructor
  · simp [workerStep, isPrimeMillerRabin, mrLoop, factor2, witnessSquares, power,
      powerLoop, Int.tmod, Int.tdiv]
  · norm_num

/-- C8 amended: every Result the 64-bit worker emits carries the
consumed pair and the candidate it computed, the wrapped value
`n64 p q`, which equals p² + 4q² exactly on the overflow-free domain
p, q ≤ 24645; under any strategy other than "miller" (in particular the
default trial division) the reported n is genuinely prime, (3,2) is
never reported and (3,5) is reported as (3,5,109); under "miller" the
verdict depends on the clock and composites can be reported. -/
theorem c8_result_invariant :
    (∀ (alg : String) (k : Int) (ts : Nat → Int) (job : Job) (r : SResult),
      workerStep64 alg k ts job = some r →
        r.p = job.p ∧ r.q = job.q ∧ r.n = n64 job.p job.q ∧
        (alg ≠ "miller" → 1 < r.n ∧ Nat.Prime r.n.toNat) ∧
        (0 ≤ job.p → job.p ≤ 24645 → 0 ≤ job.q → job.q ≤ 24645 →
          r.n = job.p * job.p + 4 * (job.q * job.q))) ∧
    (∀ (k : Int) (ts : Nat → Int),
      workerStep64 "trial" k ts ⟨3, 2⟩ = none ∧
      workerStep64 "trial" k ts ⟨3, 5⟩ = some ⟨3, 5, 109⟩) := by
  have h32 : n64 3 2 = 25 := by norm_num [n64, wrap64]
  have h35 : n64 3 5 = 109 := by norm_num [n64, wrap64]
  constructor
  · intro alg k ts job r h
    unfold workerStep64 at h
    by_cases hv : (if alg = "miller"
        then isPrimeMillerRabin64 (n64 job.p job.q) k ts
        else isPrime (n64 job.p job.q)) = true
    · rw [if_pos hv] at h
      have hr : (⟨job.p, job.q, n64 job.p job.q⟩ : SResult) = r :=
        Option.some.inj h
      subst hr
      refine ⟨rfl, rfl, rfl, ?_, ?_⟩
      · intro hne
        rw [if_neg hne] at hv
        exact (isPrime_eq_true_iff _).mp hv
      · intro hp0 hp hq0 hq
        exact n64_eq job.p job.q hp0 hp hq0 hq
    · rw [if_neg hv] at h
      cases h
  · intro k ts
    constructor
    · simp [workerStep64, h32, isPrime, trialDivLoop, Int.tmod]
    · simp [workerStep64, h35, isPrime, trialDivLoop, Int.tmod]

/-- C8 witness: the invariant instantiated on the trial-strategy report
of (3, 5, 109). -/
theorem c8_result_invariant_witness :
    (⟨3, 5, 109⟩ : SResult).p = (⟨3, 5⟩ : Job).p ∧
    (⟨3, 5⟩ : Job).q = (⟨3, 5⟩ : Job).q ∧
    (⟨3, 5, 109⟩ : SResult).n = n64 (⟨3, 5⟩ : Job).p (⟨3, 5⟩ : Job).q ∧
    (("trial" : String) ≠ "miller" → 1 < (⟨3, 5, 109⟩ : SResult).n ∧
      Nat.Prime (⟨3, 5, 109⟩ : SResult).n.toNat) ∧
    (⟨3, 5, 109⟩ : SResult).n =
      (⟨3, 5⟩ : Job).p * (⟨3, 5⟩ : Job).p + 4 * ((⟨3, 5⟩ : Job).q * (⟨3, 5⟩ : Job).q) := by
  have h := c8_result_invariant.1 "trial" 5 (fun _ => 0) ⟨3, 5⟩ ⟨3, 5, 109⟩
    (c8_result_invariant.2 5 (fun _ => 0)).2
  exact ⟨h.1, rfl, h.2.2.1, h.2.2.2.1,
    h.2.2.2.2 (by norm_num) (by norm_num) (by norm_num) (by norm_num)⟩

/-- C9: the producer emits exactly one job per pair of the prime list
with itself (p outer, q inner, in stored order) and closes the job
channel exactly once, after the last send. -/
theorem c9_producer_exactly_once (ps : List Int) (hnd : ps.Nodup) :
    (∀ j : Job, (producerTrace ps).count (ProdEvent.job j) =
      if j.p ∈ ps ∧ j.q ∈ ps then 1 else 0) ∧
    (producerTrace ps).count ProdEvent.close = 1 ∧
    (producerTrace ps).getLast? = some ProdEvent.close ∧
    producerTrace ps =
      (ps.flatMap fun p => ps.map fun q => ProdEvent.job ⟨p, q⟩) ++ [ProdEvent.close] := by
  refine ⟨?_, ?_, ?_, ?_⟩
  · intro j
    unfold producerTrace
    rw [List.count_append, producerOuter_count_job ps j ps hnd]
    have hclose : ([ProdEvent.close].count (ProdEvent.job j)) = 0 := by simp
    rw [hclose]
    by_cases hp : j.p ∈ ps
    · by_cases hq : j.q ∈ ps
      · simp [hp, hq, List.count_eq_one_of_mem hnd hq]
      · simp [hp, hq, List.count_eq_zero_of_not_mem hq]
    · simp [hp]
  · unfold producerTrace
    rw [List.count_append, producerOuter_count_close ps ps]
    simp
  · unfold producerTrace
    exact List.getLast?_concat _
  · unfold producerTrace
    rw [producerOuter_eq_bind ps ps]

/-- C9 witness: the exactly-once property instantiated on the prime list
[2, 3] and the pair (3, 2). -/
theorem c9_producer_exactly_once_witness :
    (producerTrace [2, 3]).count (ProdEvent.job ⟨3, 2⟩) =
      if (3 : Int) ∈ [(2 : Int), 3] ∧ (2 : Int) ∈ [(2 : Int), 3] then 1 else 0 :=
  (c9_producer_exactly_once [2, 3] (by simp)).1 ⟨3, 2⟩


/-- C2 counterexample: the overflow freedom does not hold for every
configurable limit: 46337 is prime, so with any limit at least 46337 the
pair (46337, 46337) is a job pair; its candidate is n = 10735587845 with
n - 1 = 2² · 2683896961, and already for the witness base a = 2 drawn at
clock reading 0 the 64-bit execution of the modular exponentiation
differs from exact arithmetic (a product overflowed int64). -/
theorem c2_counterexample :
    Nat.Prime 46337 ∧
    (46337 : Int) * 46337 + 4 * (46337 * 46337) = 10735587845 ∧
    factor2 (10735587845 - 1) = (2683896961, 2) ∧
    power64 (2 + (0 : Int).tmod (10735587845 - 3)) 2683896961 10735587845 ≠
      power (2 + (0 : Int).tmod (10735587845 - 3)) 2683896961 10735587845 := by
  refine ⟨by norm_num, by norm_num, ?_, ?_⟩
  · simp [factor2, Int.tmod, Int.tdiv]
  · have h1 : power64 (2 + (0 : Int).tmod (10735587845 - 3)) 2683896961 10735587845 = 0 := by
      simp [power64, powerLoop64, wrap64, Int.tmod, Int.tdiv]
    have h2 : power (2 + (0 : Int).tmod (10735587845 - 3)) 2683896961 10735587845 = 10092430287 := by
      simp [power, powerLoop, Int.tmod, Int.tdiv]
    rw [h1, h2]
    norm_num

/-- C2 amended: for limits up to 24645 (so n = p² + 4q² ≤ 3036880125 and
n² < 2^63) nothing overflows: the candidate computation and every
intermediate of the modular exponentiation coincide with exact
arithmetic. -/
theorem c2_no_overflow_bounded (p q : Int) (hp2 : 2 ≤ p) (hp : p ≤ 24645)
    (hq2 : 2 ≤ q) (hq : q ≤ 24645) :
    n64 p q = p * p + 4 * (q * q) ∧
    ∀ base exp : Int, 0 ≤ base →
      power64 base exp (p * p + 4 * (q * q)) = power base exp (p * p + 4 * (q * q)) := by
  have hn := n64_eq p q (by omega) hp (by omega) hq
  have h1 : p * p ≤ 607376025 := by nlinarith
  have h2 : q * q ≤ 607376025 := by nlinarith
  have h1b : 4 ≤ p * p := by nlinarith
  have h2b : 4 ≤ q * q := by nlinarith
  have h3 : p * p + 4 * (q * q) ≤ 3036880125 := by omega
  have h4 : 20 ≤ p * p + 4 * (q * q) := by omega
  refine ⟨hn, ?_⟩
  intro base exp hb
  apply power64_eq
  · omega
  · have h5 : (2 : Int) ^ 63 = 9223372036854775808 := by norm_num
    rw [h5]
    nlinarith
  · exact hb

/-- C2 witness: no overflow for the job (3, 5) and the exponentiation of
base 2 to the 3rd power mod 109. -/
theorem c2_no_overflow_bounded_witness :
    n64 3 5 = 3 * 3 + 4 * (5 * 5) ∧
    power64 2 3 ((3 : Int) * 3 + 4 * (5 * 5)) = power 2 3 ((3 : Int) * 3 + 4 * (5 * 5)) :=
  ⟨(c2_no_overflow_bounded 3 5 (by norm_num) (by norm_num) (by norm_num) (by norm_num)).1,
   (c2_no_overflow_bounded 3 5 (by norm_num) (by norm_num) (by norm_num) (by norm_num)).2
     2 3 (by norm_num)⟩


/-! ## Full correctness of the sieve -/

theorem markMultiples_length : ∀ (fuel : Nat) (marker : List Bool) (p i limit : Nat),
    limit + 1 - i = fuel → (markMultiples marker p i limit).length = marker.length := by
  intro fuel
  induction fuel using Nat.strong_induction_on with
  | _ fuel ih =>
    intro marker p i limit hfuel
    rw [markMultiples]
    by_cases h : i ≤ limit ∧ 0 < p
    · rw [dif_pos h]
      rw [ih (limit + 1 - (i + p)) (by omega) _ p (i + p) limit rfl]
      exact List.length_set ..
    · rw [dif_neg h]

/-- Marking multiples sets exactly the positions `i + p*t ≤ limit` and
leaves everything else unchanged. -/
theorem markMultiples_getD (p : Nat) (hp : 0 < p) :
    ∀ (fuel : Nat) (marker : List Bool) (i limit : Nat), limit + 1 - i = fuel →
      marker.length = limit + 1 →
      ∀ j : Nat,
        ((∃ t, j = i + p * t ∧ j ≤ limit) →
          (markMultiples marker p i limit).getD j false = true) ∧
        (¬(∃ t, j = i + p * t ∧ j ≤ limit) →
          (markMultiples marker p i limit).getD j false = marker.getD j false) := by
  intro fuel
  induction fuel using Nat.strong_induction_on with
  | _ fuel ih =>
    intro marker i limit hfuel hlen j
    rw [markMultiples]
    by_cases h : i ≤ limit ∧ 0 < p
    · rw [dif_pos h]
      have hlen' : (marker.set i true).length = limit + 1 := by
        rw [List.length_set]
        exact hlen
      have ihj := ih (limit + 1 - (i + p)) (by omega) (marker.set i true) (i + p) limit rfl hlen' j
      by_cases hji : j = i
      · subst hji
        constructor
        · intro _
          have hnotnext : ¬(∃ t, j = j + p + p * t ∧ j ≤ limit) := by
            rintro ⟨t, ht, _⟩
            omega
          rw [ihj.2 hnotnext]
          have hjlt : j < (marker.set j true).length := by omega
          simp [List.getD_eq_getElem?_getD, List.getElem?_set_self (by omega : j < marker.length)]
        · intro hc
          exact absurd ⟨0, by omega, h.1⟩ hc
      · have hset : (marker.set i true).getD j false = marker.getD j false := by
          simp [List.getD_eq_getElem?_getD, List.getElem?_set_ne (Ne.symm hji)]
        have hshift : (∃ t, j = i + p + p * t ∧ j ≤ limit) ↔ (∃ t, j = i + p * t ∧ j ≤ limit) := by
          constructor
          · rintro ⟨t, ht, hle⟩
            refine ⟨t + 1, ?_, hle⟩
            rw [Nat.mul_add, Nat.mul_one]
            omega
          · rintro ⟨t, ht, hle⟩
            rcases t with _ | t'
            · exfalso
              rw [Nat.mul_zero] at ht
              exact hji (by omega)
            · refine ⟨t', ?_, hle⟩
              rw [Nat.mul_add, Nat.mul_one] at ht
              omega
        constructor
        · intro hc
          exact ihj.1 (hshift.mpr hc)
        · intro hc
          rw [ihj.2 (fun hx => hc (hshift.mp hx)), hset]
    · rw [dif_neg h]
      have hni : ¬(∃ t, j = i + p * t ∧ j ≤ limit) := by
        rintro ⟨t, ht, hle⟩
        apply h
        constructor
        · omega
        · exact hp
      exact ⟨fun hc => absurd hc hni, fun _ => rfl⟩


theorem sieveLoop_length : ∀ (fuel : Nat) (marker : List Bool) (q limit : Nat),
    limit + 1 - q = fuel → (sieveLoop marker q limit).length = marker.length := by
  intro fuel
  induction fuel using Nat.strong_induction_on with
  | _ fuel ih =>
    intro marker q limit hfuel
    rw [sieveLoop]
    by_cases h : q * q ≤ limit
    · rw [dif_pos h]
      have hqq : q = 0 ∨ q ≤ q * q := by
        rcases Nat.eq_zero_or_pos q with h0 | h1
        · exact Or.inl h0
        · exact Or.inr (Nat.le_mul_of_pos_left q h1)
      rw [ih (limit + 1 - (q + 1)) (by omega) _ (q + 1) limit rfl]
      by_cases hm : marker.getD q false = false
      · rw [if_pos hm]
        exact markMultiples_length (limit + 1 - q * q) marker q (q * q) limit rfl
      · rw [if_neg hm]
    · rw [dif_neg h]

/-- The sieve invariant: starting from a marker that flags exactly 0, 1
and the multiples `d*t` (`d ≤ t`) of the primes `d < q`, the finished
sieve flags exactly 0, 1 and the numbers `d*t` with `d` prime, `d ≤ t`. -/
theorem sieveLoop_getD : ∀ (fuel : Nat) (marker : List Bool) (q limit : Nat),
    limit + 1 - q = fuel → 2 ≤ q → marker.length = limit + 1 →
    (∀ j, j ≤ limit → (marker.getD j false = true ↔
      (j ≤ 1 ∨ ∃ d t, Nat.Prime d ∧ d < q ∧ d ≤ t ∧ j = d * t))) →
    ∀ j, j ≤ limit → ((sieveLoop marker q limit).getD j false = true ↔
      (j ≤ 1 ∨ ∃ d t, Nat.Prime d ∧ d ≤ t ∧ j = d * t)) := by
  intro fuel
  induction fuel using Nat.strong_induction_on with
  | _ fuel ih =>
    intro marker q limit hfuel hq2 hlen hinv
    rw [sieveLoop]
    by_cases hqq : q * q ≤ limit
    · rw [dif_pos hqq]
      have hqle : q ≤ limit := Nat.le_trans (Nat.le_mul_of_pos_left q (by omega)) hqq
      by_cases hm : marker.getD q false = false
      · -- q is unmarked, hence prime; mark its multiples from q²
        rw [if_pos hm]
        have hqnotold : ¬(q ≤ 1 ∨ ∃ d t, Nat.Prime d ∧ d < q ∧ d ≤ t ∧ q = d * t) := by
          intro hc
          have := (hinv q hqle).mpr hc
          rw [hm] at this
          cases this
        have hqprime : Nat.Prime q := by
          by_contra hnp
          apply hqnotold
          right
          have hd : q.minFac.Prime := Nat.minFac_prime (by omega)
          have hdvd : q.minFac ∣ q := Nat.minFac_dvd q
          have hsq : q.minFac * q.minFac ≤ q := by
            have := Nat.minFac_sq_le_self (n := q) (by omega) hnp
            simpa [pow_two] using this
          refine ⟨q.minFac, q / q.minFac, hd, ?_, ?_, (Nat.mul_div_cancel' hdvd).symm⟩
          · -- minFac < q
            have hle : q.minFac ≤ q := Nat.le_of_dvd (by omega) hdvd
            rcases Nat.lt_or_ge q.minFac q with h | h
            · exact h
            · exfalso
              have : q = q.minFac := by omega
              rw [← this] at hsq
              have : q ≤ 1 := by nlinarith
              omega
          · -- minFac ≤ q / minFac
            have h2 : q.minFac * q.minFac ≤ q.minFac * (q / q.minFac) := by
              rw [Nat.mul_div_cancel' hdvd]
              exact hsq
            exact Nat.le_of_mul_le_mul_left h2 (by have := hd.two_le; omega)
        set marker' := markMultiples marker q (q * q) limit with hmdef
        have hlen' : marker'.length = limit + 1 := by
          rw [hmdef, markMultiples_length (limit + 1 - q * q) marker q (q * q) limit rfl]
          exact hlen
        have hinv' : ∀ j, j ≤ limit → (marker'.getD j false = true ↔
            (j ≤ 1 ∨ ∃ d t, Nat.Prime d ∧ d < q + 1 ∧ d ≤ t ∧ j = d * t)) := by
          intro j hj
          have hmk := markMultiples_getD q (by omega) (limit + 1 - q * q) marker (q * q) limit rfl hlen j
          by_cases hC : ∃ t, j = q * q + q * t ∧ j ≤ limit
          · rw [hmk.1 hC]
            obtain ⟨t, ht, _⟩ := hC
            constructor
            · intro _
              right
              refine ⟨q, q + t, hqprime, by omega, by omega, ?_⟩
              rw [Nat.mul_add]
              omega
            · intro _
              rfl
          · rw [hmk.2 hC]
            rw [hinv j hj]
            constructor
            · rintro (h1 | ⟨d, t, hd, hdq, hdt, hjd⟩)
              · exact Or.inl h1
              · exact Or.inr ⟨d, t, hd, by omega, hdt, hjd⟩
            · rintro (h1 | ⟨d, t, hd, hdq, hdt, hjd⟩)
              · exact Or.inl h1
              · by_cases hdq' : d < q
                · exact Or.inr ⟨d, t, hd, hdq', hdt, hjd⟩
                · exfalso
                  have hdq2 : d = q := by omega
                  subst hdq2
                  apply hC
                  obtain ⟨u, hu⟩ : ∃ u, t = d + u := ⟨t - d, by omega⟩
                  refine ⟨u, ?_, hj⟩
                  rw [hjd, hu, Nat.mul_add]
        exact ih (limit + 1 - (q + 1)) (by omega) marker' (q + 1) limit rfl (by omega) hlen' hinv'
      · -- q is already marked, hence composite: nothing new to mark
        rw [if_neg hm]
        have hmq : marker.getD q false = true := by
          revert hm
          cases marker.getD q false <;> simp
        have hinv' : ∀ j, j ≤ limit → (marker.getD j false = true ↔
            (j ≤ 1 ∨ ∃ d t, Nat.Prime d ∧ d < q + 1 ∧ d ≤ t ∧ j = d * t)) := by
          intro j hj
          rw [hinv j hj]
          constructor
          · rintro (h1 | ⟨d, t, hd, hdq, hdt, hjd⟩)
            · exact Or.inl h1
            · exact Or.inr ⟨d, t, hd, by omega, hdt, hjd⟩
          · rintro (h1 | ⟨d, t, hd, hdq, hdt, hjd⟩)
            · exact Or.inl h1
            · by_cases hdq' : d < q
              · exact Or.inr ⟨d, t, hd, hdq', hdt, hjd⟩
              · exfalso
                have hdq2 : d = q := by omega
                -- d = q would make q prime, but q is marked: it has a
                -- proper prime factorization
                have hqfact := (hinv q hqle).mp hmq
                rcases hqfact with h1 | ⟨e, u, he, heq, heu, hqe⟩
                · omega
                · have hedvd : e ∣ q := ⟨u, hqe⟩
                  have hdq3 : Nat.Prime q := hdq2 ▸ hd
                  rcases (Nat.Prime.eq_one_or_self_of_dvd hdq3 e hedvd) with hc | hc
                  · have := he.two_le
                    omega
                  · omega
        exact ih (limit + 1 - (q + 1)) (by omega) marker (q + 1) limit rfl (by omega) hlen hinv'
    · rw [dif_neg hqq]
      intro j hj
      rw [hinv j hj]
      constructor
      · rintro (h1 | ⟨d, t, hd, hdq, hdt, hjd⟩)
        · exact Or.inl h1
        · exact Or.inr ⟨d, t, hd, hdt, hjd⟩
      · rintro (h1 | ⟨d, t, hd, hdt, hjd⟩)
        · exact Or.inl h1
        · right
          refine ⟨d, t, hd, ?_, hdt, hjd⟩
          -- d² ≤ d·t = j ≤ limit < q², so d < q
          by_contra hdq
          have h1 : q * q ≤ d * d := Nat.mul_le_mul (by omega) (by omega)
          have h2 : d * d ≤ d * t := Nat.mul_le_mul_left d hdt
          omega
  -- j ≤ limit is needed for the last omega

theorem collectLoop_eq : ∀ (fuel : Nat) (marker : List Bool) (p limit : Nat),
    limit + 1 - p = fuel →
    collectLoop marker p limit =
      ((List.range' p (limit + 1 - p)).filter fun j => marker.getD j false == false).map
        (fun j : Nat => (j : Int)) := by
  intro fuel
  induction fuel using Nat.strong_induction_on with
  | _ fuel ih =>
    intro marker p limit hfuel
    rw [collectLoop]
    by_cases h : p ≤ limit
    · rw [if_pos h]
      have hc : limit + 1 - p = (limit + 1 - (p + 1)) + 1 := by omega
      rw [hc, List.range'_succ, List.filter_cons]
      rw [ih (limit + 1 - (p + 1)) (by omega) marker (p + 1) limit rfl]
      by_cases hm : marker.getD p false = false
      · simp only [hm, if_pos]
        simp
      · have hm' : marker.getD p false = true := by
          revert hm
          cases marker.getD p false <;> simp
        rw [List.getD_eq_getElem?_getD] at hm'
        simp [hm']
    · rw [if_neg h]
      have hc : limit + 1 - p = 0 := by omega
      rw [hc]
      simp

/-- For `j ≥ 2`, having a factorization `j = d*t` with `d` prime and
`d ≤ t` is exactly being composite. -/
theorem factored_iff_not_prime (j : Nat) (h2 : 2 ≤ j) :
    (∃ d t, Nat.Prime d ∧ d ≤ t ∧ j = d * t) ↔ ¬ Nat.Prime j := by
  constructor
  · rintro ⟨d, t, hd, hdt, hjd⟩ hp
    have hdvd : d ∣ j := ⟨t, hjd⟩
    rcases hp.eq_one_or_self_of_dvd d hdvd with hc | hc
    · have := hd.two_le
      omega
    · subst hc
      have ht2 : ¬ 2 ≤ t := by
        intro ht2
        have h2d : 2 * d ≤ d * t := by
          calc 2 * d = d * 2 := by ring
          _ ≤ d * t := Nat.mul_le_mul_left d ht2
        omega
      have ht0 : t ≠ 0 := by
        intro h0
        subst h0
        simp at hjd
        omega
      have := hd.two_le
      omega
  · intro hnp
    have hd : j.minFac.Prime := Nat.minFac_prime (by omega)
    have hdvd : j.minFac ∣ j := Nat.minFac_dvd j
    have hsq : j.minFac * j.minFac ≤ j := by
      have := Nat.minFac_sq_le_self (n := j) (by omega) hnp
      simpa [pow_two] using this
    refine ⟨j.minFac, j / j.minFac, hd, ?_, (Nat.mul_div_cancel' hdvd).symm⟩
    have h2' : j.minFac * j.minFac ≤ j.minFac * (j / j.minFac) := by
      rw [Nat.mul_div_cancel' hdvd]
      exact hsq
    exact Nat.le_of_mul_le_mul_left h2' (by have := hd.two_le; omega)

/-- Full correctness of the sieve for positive limits: the returned list
holds exactly the primes up to the limit, in strictly increasing order
with no duplicates. -/
theorem sieve_correct (L : Int) (hL : 1 ≤ L) :
    ∃ l, sieveOfEratosthenes L = some l ∧
      (∀ x : Int, x ∈ l ↔ 1 < x ∧ x ≤ L ∧ Nat.Prime x.toNat) ∧
      l.Sorted (· < ·) ∧ l.Nodup := by
  set limit := L.toNat with hlim
  have hL1 : 1 ≤ limit := by omega
  set marker0 := ((List.replicate (limit + 1) false).set 0 true).set 1 true with hm0
  have hlen0 : marker0.length = limit + 1 := by
    rw [hm0, List.length_set, List.length_set, List.length_replicate]
  have hinv0 : ∀ j, j ≤ limit → (marker0.getD j false = true ↔
      (j ≤ 1 ∨ ∃ d t, Nat.Prime d ∧ d < 2 ∧ d ≤ t ∧ j = d * t)) := by
    intro j hj
    have hnone : ¬(∃ d t, Nat.Prime d ∧ d < 2 ∧ d ≤ t ∧ j = d * t) := by
      rintro ⟨d, t, hd, hd2, _, _⟩
      have := hd.two_le
      omega
    have hget : marker0.getD j false = if j ≤ 1 then true else false := by
      rcases Nat.lt_or_ge j 2 with hj2 | hj2
      · rcases (show j = 0 ∨ j = 1 from by omega) with h0 | h1
        · subst h0
          rw [if_pos (by omega)]
          rw [hm0]
          simp only [List.getD_eq_getElem?_getD]
          rw [List.getElem?_set_ne (by omega)]
          rw [List.getElem?_set_self (by simpa using (by omega : 0 < limit + 1))]
          rfl
        · subst h1
          rw [if_pos (by omega)]
          rw [hm0]
          simp only [List.getD_eq_getElem?_getD]
          rw [List.getElem?_set_self (by simpa using (by omega : 1 < limit + 1))]
          rfl
      · rw [if_neg (by omega)]
        rw [hm0]
        simp only [List.getD_eq_getElem?_getD]
        rw [List.getElem?_set_ne (by omega), List.getElem?_set_ne (by omega)]
        rw [List.getElem?_replicate]
        split <;> rfl
    rw [hget]
    by_cases hj1 : j ≤ 1
    · simp [hj1]
    · simp only [if_neg hj1]
      constructor
      · intro hc
        cases hc
      · rintro (h1 | hf)
        · omega
        · exact absurd hf hnone
  set marked := sieveLoop marker0 2 limit with hmarked
  have hfinal := sieveLoop_getD (limit + 1 - 2) marker0 2 limit rfl (by omega) hlen0 hinv0
  have hsv : sieveOfEratosthenes L = some (collectLoop marked 2 limit) := by
    unfold sieveOfEratosthenes
    rw [if_neg (by omega : ¬ L ≤ 0)]
  refine ⟨collectLoop marked 2 limit, hsv, ?_, ?_, ?_⟩
  · -- membership: exactly the primes up to L
    have hcoll := collectLoop_eq (limit + 1 - 2) marked 2 limit rfl
    intro x
    rw [hcoll]
    simp only [List.mem_map, List.mem_filter, List.mem_range'_1, beq_iff_eq]
    constructor
    · rintro ⟨j, ⟨⟨hj2, hjlt⟩, hmk⟩, rfl⟩
      have hjle : j ≤ limit := by omega
      have hnot : ¬(j ≤ 1 ∨ ∃ d t, Nat.Prime d ∧ d ≤ t ∧ j = d * t) := by
        intro hc
        have := (hfinal j hjle).mpr hc
        rw [hmk] at this
        cases this
      push_neg at hnot
      have hprime : Nat.Prime j := by
        by_contra hnp
        obtain ⟨d, t, hf⟩ := (factored_iff_not_prime j (by omega)).mpr hnp
        exact hnot.2 d t hf.1 hf.2.1 hf.2.2
      refine ⟨by omega, by omega, by simpa using hprime⟩
    · rintro ⟨hx1, hxL, hxp⟩
      refine ⟨x.toNat, ⟨⟨by omega, by omega⟩, ?_⟩, by omega⟩
      have hjle : x.toNat ≤ limit := by omega
      have hnottrue : ¬(marked.getD x.toNat false = true) := by
        rw [hfinal x.toNat hjle]
        rintro (h1 | hf)
        · omega
        · exact (factored_iff_not_prime x.toNat (by omega)).mp hf hxp
      revert hnottrue
      cases marked.getD x.toNat false <;> simp
  · -- sorted
    rw [collectLoop_eq (limit + 1 - 2) marked 2 limit rfl]
    apply List.Pairwise.map (fun j : Nat => (j : Int)) (fun a b (hab : a < b) => by simp only []; exact_mod_cast hab)
    exact (List.pairwise_lt_range' 2 (limit + 1 - 2)).filter _
  · -- nodup
    rw [collectLoop_eq (limit + 1 - 2) marked 2 limit rfl]
    apply List.Pairwise.imp (fun hab => ne_of_lt hab)
    apply List.Pairwise.map (fun j : Nat => (j : Int)) (fun a b (hab : a < b) => by simp only []; exact_mod_cast hab)
    exact (List.pairwise_lt_range' 2 (limit + 1 - 2)).filter _


/-- C3: the sieve panics (modelled as `none`) for limit 0 and every
negative limit — the marker initialization indexes out of range — while
for every positive limit it returns exactly the ascending,
duplicate-free list of the primes up to the limit; in particular
Sieve(1) = [], Sieve(2) = [2], Sieve(10) = [2,3,5,7] and
Sieve(30) = [2,3,5,7,11,13,17,19,23,29]. -/
theorem c3_sieve_behavior :
    (∀ L : Int, L ≤ 0 → sieveOfEratosthenes L = none) ∧
    (∀ L : Int, 1 ≤ L → ∃ l, sieveOfEratosthenes L = some l ∧
      (∀ x : Int, x ∈ l ↔ 1 < x ∧ x ≤ L ∧ Nat.Prime x.toNat) ∧
      l.Sorted (· < ·) ∧ l.Nodup) ∧
    sieveOfEratosthenes 0 = none ∧
    sieveOfEratosthenes 1 = some [] ∧
    sieveOfEratosthenes 2 = some [2] ∧
    sieveOfEratosthenes 10 = some [2, 3, 5, 7] ∧
    sieveOfEratosthenes 30 = some [2, 3, 5, 7, 11, 13, 17, 19, 23, 29] := by
  refine ⟨?_, fun L hL => sieve_correct L hL, by simp [sieveOfEratosthenes], ?_, ?_, ?_, ?_⟩
  · intro L hL
    unfold sieveOfEratosthenes
    rw [if_pos hL]
  all_goals simp [sieveOfEratosthenes, sieveLoop, markMultiples, collectLoop]

/-- C3 witness: the panic conjunct instantiated at limit -7. -/
theorem c3_sieve_behavior_witness :
    sieveOfEratosthenes (-7) = none :=
  c3_sieve_behavior.1 (-7) (by norm_num)

end PrimeNumber
